import Mathlib

/-!
Shallow embedding of the memory-recall engine of ReflexEngine V3:
the bounded Fibonacci decay, the concept-association graph (SRG) with
its training call and its follow-up-concept query, and the STM/LTM
recall pipeline of the recall-weaver service.

Modelling conventions.  JavaScript numbers are embedded as rationals,
JS `Map`s as insertion-ordered association lists (`mapGet` reads the
first matching entry, `mapSet` overwrites the entry in place or appends
a new one at the end — the observable `Map.get`/`Map.set` behaviour),
and optional TypeScript fields as `Option`.  `Array.prototype.sort` is
required to be stable by ECMAScript, so it is embedded as
`List.mergeSort` with the boolean ordering derived from the JS
comparator.  The non-null assertion in `ltm.find(...)!` is embedded as
`filterMap` over `List.find?`.
-/

/-- A memory atom (`MemoryAtom` of src/types.ts), restricted to the
fields the recall and SRG services read.  `concepts`,
`activationScore` and `lastActivatedTurn` are optional in the
TypeScript interface, hence `Option`; `type` holds one of the six
`MemoryAtomType` string literals. -/
structure MemoryAtom where
  uuid : String
  type : String
  text : String
  concepts : Option (List String)
  activationScore : Option ℚ
  lastActivatedTurn : Option Int
  deriving DecidableEq, Repr

/-- The `fibonacci` of recallWeaverService.ts.  Its cache is observably
pure memoization, so the function is exactly its recurrence; arguments
are clamped to 40 (`limitedN = Math.min(n, 40)`), making the sequence
constant from index 40 on. -/
def fibonacci (n : Nat) : Nat :=
  if n ≤ 1 then 1
  else fibonacci (min n 40 - 1) + fibonacci (min n 40 - 2)
termination_by n
decreasing_by
  all_goals
    have h40 : min n 40 ≤ n := Nat.min_le_left n 40
    omega

/-- The decay step of `recall` (recallWeaverService.ts lines 44-53):
for a positive age the activation score is multiplied by
`1 - 1/fibonacci(turnsOld + 2)` and floored at `0.01`; a non-positive
age leaves the score unchanged. -/
def decayScore (score : ℚ) (turnsOld : Int) : ℚ :=
  if 0 < turnsOld then
    max (1 / 100) (score * (1 - 1 / (fibonacci (turnsOld + 2).toNat : ℚ)))
  else score

/-- One element of `decayedLtm`: the scoring copy
`{ ...atom, activationScore: decayedScore }` with
`turnsOld = currentTurn - (atom.lastActivatedTurn ?? 0)` and the
default `atom.activationScore ?? 1.0`. -/
def decayAtom (currentTurn : Int) (atom : MemoryAtom) : MemoryAtom :=
  let turnsOld := currentTurn - atom.lastActivatedTurn.getD 0
  { atom with activationScore := some (decayScore (atom.activationScore.getD 1) turnsOld) }

/-- A JS `Map` with string keys, embedded as an insertion-ordered
association list. -/
abbrev JsMap (α : Type) := List (String × α)

/-- JS `Map.get`: the value of the first entry with the given key. -/
def mapGet {α : Type} (m : JsMap α) (k : String) : Option α :=
  (m.find? (fun p => p.1 == k)).map Prod.snd

/-- JS `Map.set`: overwrite the entry in place if the key is present,
otherwise append a new entry at the end. -/
def mapSet {α : Type} (m : JsMap α) (k : String) (v : α) : JsMap α :=
  if m.any (fun p => p.1 == k) then
    m.map (fun p => if p.1 == k then (k, v) else p)
  else m ++ [(k, v)]

/-- The SRG concept graph: `Map<'type:concept', Map<'type:concept', number>>`. -/
abbrev ConceptGraph := JsMap (JsMap ℚ)

/-- The weight the graph holds on the directed edge `k1 → k2` (0 when
the edge or the source node is absent). -/
def edgeWeight (g : ConceptGraph) (k1 k2 : String) : ℚ :=
  (mapGet ((mapGet g k1).getD []) k2).getD 0

/-- The embedding of `str.split(':')` on the character list: split at every colon; the
empty string yields `[""]`, exactly the JS semantics. -/
def splitOnColon : List Char → List (List Char)
  | [] => [[]]
  | c :: rest =>
    match splitOnColon rest with
    | [] => [[]]
    | h :: t => if c = ':' then [] :: h :: t else (c :: h) :: t

/-- The embedding of `parts.join(':')`. -/
def joinColon : List String → String
  | [] => ""
  | [s] => s
  | s :: rest => s ++ ":" ++ joinColon rest

/-- The key projection `followUpKey.split(':').slice(1).join(':')`: drop the category part
before the first colon of a composite key. -/
def dropCategory (key : String) : String :=
  joinColon ((splitOnColon key.data).map String.mk).tail

/-- The inner loop of `trainOnTransition`: bump the weight of the edge
towards `'targetType:tConcept'` by 1 for every target concept. -/
def addTargetEdges (targetType : String) (targetConcepts : List String) (tr : JsMap ℚ) :
    JsMap ℚ :=
  targetConcepts.foldl (fun tr1 tConcept =>
    let targetKey := targetType ++ ":" ++ tConcept
    mapSet tr1 targetKey ((mapGet tr1 targetKey).getD 0 + 1)) tr

/-- The embedding of `SrgService.trainOnTransition`.  The `sourceAtom.concepts || await
this.extractConcepts(...)` resolution is embedded by passing the
result the external concept extractor would return for each atom as an
explicit argument, used only when the `concepts` field is absent (a
present-but-empty array is truthy in JS and is not re-extracted).
`trainSourceFold` is the outer loop over the source concepts. -/
def trainSourceFold (sourceType targetType : String)
    (targetConcepts sourceConcepts : List String) (g : ConceptGraph) : ConceptGraph :=
  sourceConcepts.foldl (fun g1 sConcept =>
    let sourceKey := sourceType ++ ":" ++ sConcept
    mapSet g1 sourceKey
      (addTargetEdges targetType targetConcepts ((mapGet g1 sourceKey).getD []))) g

def trainOnTransition (g : ConceptGraph) (sourceAtom targetAtom : MemoryAtom)
    (srcExtracted tgtExtracted : List String) : ConceptGraph :=
  let sourceConcepts := sourceAtom.concepts.getD srcExtracted
  let targetConcepts := targetAtom.concepts.getD tgtExtracted
  if sourceConcepts.isEmpty ∨ targetConcepts.isEmpty then g
  else trainSourceFold sourceAtom.type targetAtom.type targetConcepts sourceConcepts g

/-- The inner loop over a node's transitions in `getFollowUpConcepts`:
add each outgoing weight to the association map under the target
concept, with its category dropped. -/
def addTransitionWeights (transitions : JsMap ℚ) (m : JsMap ℚ) : JsMap ℚ :=
  transitions.foldl (fun m1 p =>
    let c := dropCategory p.1
    mapSet m1 c ((mapGet m1 c).getD 0 + p.2)) m

/-- One concept of one source atom in the `getFollowUpConcepts` scan:
record the concept as an original concept (JS `Set.add`: append when
new) and, when the graph knows the node `'ty:concept'`, fold its
outgoing weights into the association map. -/
def followUpConceptStep (g : ConceptGraph) (ty : String) (acc2 : JsMap ℚ × List String)
    (concept : String) : JsMap ℚ × List String :=
  let originals := if acc2.2.contains concept then acc2.2 else acc2.2 ++ [concept]
  match mapGet g (ty ++ ":" ++ concept) with
  | some transitions => (addTransitionWeights transitions acc2.1, originals)
  | none => (acc2.1, originals)

/-- One source atom of the `getFollowUpConcepts` scan. -/
def followUpStep (g : ConceptGraph) (acc : JsMap ℚ × List String) (atom : MemoryAtom) :
    JsMap ℚ × List String :=
  (atom.concepts.getD []).foldl (followUpConceptStep g atom.type) acc

/-- The association map and original-concept set built by
`getFollowUpConcepts` over all source atoms. -/
def followUpState (g : ConceptGraph) (sourceAtoms : List MemoryAtom) :
    JsMap ℚ × List String :=
  sourceAtoms.foldl (followUpStep g) ([], [])

/-- The ordering realised by the JS comparators
`(a, b) => b.score - a.score` and `(a, b) => b[1] - a[1]`: a stable
sort with such a comparator keeps `a` before `b` exactly when `b`'s
number is at most `a`'s. -/
def scoreLE {α : Type} (a b : α × ℚ) : Bool := decide (b.2 ≤ a.2)

/-- The embedding of `SrgService.getFollowUpConcepts`: aggregate outgoing weights,
delete the source atoms' own concepts, stably sort by weight
descending, truncate to `topK` and keep the concept strings. -/
def getFollowUpConcepts (g : ConceptGraph) (sourceAtoms : List MemoryAtom) (topK : Nat) :
    List String :=
  let st := followUpState g sourceAtoms
  let associations := st.1.filter (fun p => !(st.2.contains p.1))
  (((associations.mergeSort scoreLE).take topK).map Prod.fst)

def STM_CAPACITY : Nat := 15

def LTM_RECALL_K : Nat := 5

def AXIOM_RECALL_K : Nat := 3

/-- The working set `memory.slice(-STM_CAPACITY)`: the set of the last 15 atoms. -/
def stmOf (memory : List MemoryAtom) : List MemoryAtom :=
  memory.drop (memory.length - STM_CAPACITY)

/-- The archive `memory.slice(0, -STM_CAPACITY)`: all earlier atoms. -/
def ltmOf (memory : List MemoryAtom) : List MemoryAtom :=
  memory.take (memory.length - STM_CAPACITY)

/-- The STM concepts `stm.flatMap(a => a.concepts || [])`. -/
def stmConceptsOf (memory : List MemoryAtom) : List String :=
  (stmOf memory).foldr (fun a acc => a.concepts.getD [] ++ acc) []

/-- The follow-up query `srgService.getFollowUpConcepts(stm, 10)`. -/
def followUpsOf (g : ConceptGraph) (memory : List MemoryAtom) : List String :=
  getFollowUpConcepts g (stmOf memory) 10

/-- The membership model of the JS
`Set([...stmConcepts, ...followUpConcepts])`: only membership and
non-emptiness of the set are ever consumed, and both coincide with
membership and non-emptiness of the concatenated list. -/
def expandedOf (g : ConceptGraph) (memory : List MemoryAtom) : List String :=
  stmConceptsOf memory ++ followUpsOf g memory

/-- The general-memory scoring body (recallWeaverService.ts lines
65-79), applied to a decayed scoring copy: count the atom's concepts
present in the expanded query, add 2.0 for each concept that is a
predicted follow-up concept, drop to 0 when the resonance is 0,
multiply by 1.1 for `subconscious_reflection` atoms, and scale by the
(already decayed) activation score. -/
def scoreGeneralAtom (expanded followUps : List String) (atom : MemoryAtom) : ℚ :=
  let cs := atom.concepts.getD []
  let resonance0 : ℚ :=
    if expanded ≠ [] ∧ cs ≠ [] then
      ((cs.filter (fun c => expanded.contains c)).length : ℚ)
        + 2 * ((cs.filter (fun c => followUps.contains c)).length : ℚ)
    else 0
  if resonance0 = 0 then 0
  else
    let resonance1 :=
      if atom.type = "subconscious_reflection" then resonance0 * (11 / 10) else resonance0
    resonance1 * atom.activationScore.getD 1

/-- The axiom scoring body (recallWeaverService.ts lines 85-92):
twice the count of the atom's concepts present directly in the STM
concepts, scaled by the (already decayed) activation score. -/
def scoreAxiomAtom (stmConcepts : List String) (atom : MemoryAtom) : ℚ :=
  let cs := atom.concepts.getD []
  let resonance : ℚ :=
    if stmConcepts ≠ [] ∧ cs ≠ [] then
      ((cs.filter (fun c => stmConcepts.contains c)).length : ℚ) * 2
    else 0
  resonance * atom.activationScore.getD 1

/-- The list `decayedLtm`: the scoring copies of the archive. -/
def decayedLtmOf (currentTurn : Int) (memory : List MemoryAtom) : List MemoryAtom :=
  (ltmOf memory).map (decayAtom currentTurn)

/-- The pool `scoredMemories`: every non-axiom scoring copy paired with its
general-memory score. -/
def scoredMemoriesOf (g : ConceptGraph) (memory : List MemoryAtom) (currentTurn : Int) :
    List (MemoryAtom × ℚ) :=
  ((decayedLtmOf currentTurn memory).filter (fun a => a.type != "axiom")).map
    (fun atom => (atom, scoreGeneralAtom (expandedOf g memory) (followUpsOf g memory) atom))

/-- The pool `scoredAxioms`: every axiom scoring copy paired with its axiom
score (a pool separate from the general memories). -/
def scoredAxiomsOf (memory : List MemoryAtom) (currentTurn : Int) :
    List (MemoryAtom × ℚ) :=
  ((decayedLtmOf currentTurn memory).filter (fun a => a.type == "axiom")).map
    (fun atom => (atom, scoreAxiomAtom (stmConceptsOf memory) atom))

/-- The shared tail of both pools (recallWeaverService.ts lines
96-106): keep strictly positive scores, stably sort descending, take
the first `k`, and map each survivor back to the original archive atom
with its uuid. -/
def selectTop (ltm : List MemoryAtom) (scored : List (MemoryAtom × ℚ)) (k : Nat) :
    List MemoryAtom :=
  (((scored.filter (fun p => decide (0 < p.2))).mergeSort scoreLE).take k).filterMap
    (fun p => ltm.find? (fun o => o.uuid == p.1.uuid))

/-- The result record of `recall`. -/
structure RecallResult where
  memories : List MemoryAtom
  axioms : List MemoryAtom
  deriving DecidableEq, Repr

/-- The embedding of `RecallWeaverService.recall`.  The graph read by the follow-up
query is passed explicitly. -/
def recallFn (g : ConceptGraph) (memory : List MemoryAtom) (currentTurn : Int) : RecallResult :=
  if memory.length ≤ STM_CAPACITY then ⟨[], []⟩
  else
    ⟨selectTop (ltmOf memory) (scoredMemoriesOf g memory currentTurn) LTM_RECALL_K,
     selectTop (ltmOf memory) (scoredAxiomsOf memory currentTurn) AXIOM_RECALL_K⟩



/-- Iterative Fibonacci pairs `(fib n, fib (n+1))`, the
kernel-evaluable companion used to reason about `fibonacci`. -/
def fibPair : Nat → Nat × Nat
  | 0 => (1, 1)
  | n + 1 => ((fibPair n).2, (fibPair n).1 + (fibPair n).2)

/-- The bounded lookup view of the memoized `fibonacci`: the pair
iteration evaluated at the index clamped to 40. -/
def fibTable (n : Nat) : Nat := (fibPair (min n 40)).1

theorem fibPair_succ_fst (n : Nat) : (fibPair (n + 1)).1 = (fibPair n).2 := rfl

theorem fibPair_succ_snd (n : Nat) :
    (fibPair (n + 1)).2 = (fibPair n).1 + (fibPair n).2 := rfl

theorem fibTable_eq_of_le {n : Nat} (h : n ≤ 40) : fibTable n = (fibPair n).1 := by
  rw [fibTable, Nat.min_eq_left h]

theorem fibTable_rec {m : Nat} (h2 : 2 ≤ m) (h40 : m ≤ 40) :
    fibTable m = fibTable (m - 1) + fibTable (m - 2) := by
  obtain ⟨k, rfl⟩ : ∃ k, m = k + 2 := ⟨m - 2, by omega⟩
  rw [fibTable_eq_of_le h40, fibTable_eq_of_le (by omega), fibTable_eq_of_le (by omega)]
  have e1 : k + 2 - 1 = k + 1 := by omega
  have e2 : k + 2 - 2 = k := by omega
  rw [e1, e2, fibPair_succ_fst, fibPair_succ_snd, fibPair_succ_fst]
  omega

theorem fibTable_eq_of_ge {n : Nat} (h : 40 ≤ n) : fibTable n = fibTable 40 := by
  rw [fibTable, fibTable, Nat.min_eq_right h, Nat.min_self]

theorem fibonacci_eq_fibTable (n : Nat) : fibonacci n = fibTable n := by
  induction n using Nat.strong_induction_on with
  | _ n ih =>
    rw [fibonacci]
    split
    · rename_i h
      interval_cases n
      · decide
      · decide
    · rename_i h
      have hmin : min n 40 ≤ n := Nat.min_le_left n 40
      have h40 : min n 40 ≤ 40 := Nat.min_le_right n 40
      have h2 : 2 ≤ min n 40 := by omega
      rw [ih (min n 40 - 1) (by omega), ih (min n 40 - 2) (by omega)]
      have hn : fibTable n = fibTable (min n 40) := by
        rcases le_or_lt n 40 with hle | hlt
        · rw [Nat.min_eq_left hle]
        · rw [Nat.min_eq_right (by omega), fibTable_eq_of_ge (by omega)]
      rw [hn, fibTable_rec h2 h40]

theorem fibonacci_cap {n : Nat} (h : 40 ≤ n) : fibonacci n = fibonacci 40 := by
  rw [fibonacci_eq_fibTable, fibonacci_eq_fibTable, fibTable_eq_of_ge h]

theorem one_le_fibPair (n : Nat) : 1 ≤ (fibPair n).1 ∧ 1 ≤ (fibPair n).2 := by
  induction n with
  | zero => exact ⟨le_refl 1, le_refl 1⟩
  | succ n ih =>
    rw [fibPair_succ_fst, fibPair_succ_snd]
    omega

theorem one_le_fibonacci (n : Nat) : 1 ≤ fibonacci n := by
  rw [fibonacci_eq_fibTable, fibTable]
  exact (one_le_fibPair _).1

theorem fibPair_fst_mono : Monotone (fun n => (fibPair n).1) := by
  refine monotone_nat_of_le_succ fun n => ?_
  rw [fibPair_succ_fst]
  induction n with
  | zero => exact le_refl 1
  | succ n ih =>
    rw [fibPair_succ_fst, fibPair_succ_snd]
    exact Nat.le_add_left _ _

theorem fibonacci_mono : Monotone fibonacci := by
  intro a b hab
  rw [fibonacci_eq_fibTable, fibonacci_eq_fibTable, fibTable, fibTable]
  exact fibPair_fst_mono (min_le_min hab (le_refl 40))

theorem decayScore_of_nonpos {t : Int} (s : ℚ) (h : t ≤ 0) : decayScore s t = s := by
  rw [decayScore, if_neg (by omega)]

theorem decayScore_of_pos {t : Int} (s : ℚ) (h : 0 < t) :
    decayScore s t = max (1 / 100) (s * (1 - 1 / (fibonacci (t + 2).toNat : ℚ))) := by
  rw [decayScore, if_pos h]

theorem le_decayScore_of_pos {t : Int} (s : ℚ) (h : 0 < t) :
    1 / 100 ≤ decayScore s t := by
  rw [decayScore_of_pos s h]
  exact le_max_left _ _

theorem fibonacci_cast_pos (n : Nat) : (0 : ℚ) < (fibonacci n : ℚ) := by
  exact_mod_cast Nat.lt_of_lt_of_le Nat.zero_lt_one (one_le_fibonacci n)

theorem decayScore_le_self {t : Int} {s : ℚ} (hs : 1 / 100 ≤ s) : decayScore s t ≤ s := by
  rcases le_or_lt t 0 with h | h
  · rw [decayScore_of_nonpos s h]
  · rw [decayScore_of_pos s h]
    refine max_le hs ?_
    refine mul_le_of_le_one_right (le_trans (by norm_num) hs) ?_
    have hfib : (0 : ℚ) ≤ 1 / (fibonacci (t + 2).toNat : ℚ) := by positivity
    linarith

theorem decayScore_mono_of_pos {t1 t2 : Int} {s : ℚ} (hs : 0 ≤ s) (h1 : 0 < t1)
    (h12 : t1 ≤ t2) : decayScore s t1 ≤ decayScore s t2 := by
  have h2 : 0 < t2 := lt_of_lt_of_le h1 h12
  rw [decayScore_of_pos s h1, decayScore_of_pos s h2]
  refine max_le_max (le_refl _) ?_
  refine mul_le_mul_of_nonneg_left ?_ hs
  have hmono : fibonacci (t1 + 2).toNat ≤ fibonacci (t2 + 2).toNat :=
    fibonacci_mono (Int.toNat_le_toNat (by omega))
  have hpos := fibonacci_cast_pos (t1 + 2).toNat
  have hdiv : 1 / (fibonacci (t2 + 2).toNat : ℚ) ≤ 1 / (fibonacci (t1 + 2).toNat : ℚ) :=
    one_div_le_one_div_of_le hpos (by exact_mod_cast hmono)
  linarith

/-- C3: the decay computation of `recall` leaves the activation score
unchanged when `turnsOld <= 0` and otherwise floors
`score * (1 - 1/fibonacci(turnsOld + 2))` at `0.01`; and the Fibonacci
sequence is capped at index 40: `fibonacci n = fibonacci 40` for every
`n > 40`. -/
theorem decay_formula_and_fib_cap (atom : MemoryAtom) (currentTurn : Int) (n : Nat)
    (hn : 40 < n) :
    (decayAtom currentTurn atom).activationScore =
      some (if currentTurn - atom.lastActivatedTurn.getD 0 ≤ 0 then
          atom.activationScore.getD 1
        else
          max (1 / 100) (atom.activationScore.getD 1 *
            (1 - 1 / (fibonacci ((currentTurn - atom.lastActivatedTurn.getD 0) + 2).toNat : ℚ))))
    ∧ fibonacci n = fibonacci 40 := by
  constructor
  · show some (decayScore _ _) = _
    congr 1
    rcases le_or_lt (currentTurn - atom.lastActivatedTurn.getD 0) 0 with h | h
    · rw [decayScore_of_nonpos _ h, if_pos h]
    · rw [decayScore_of_pos _ h, if_neg (by omega)]
  · exact fibonacci_cap (le_of_lt hn)

/-- A concrete half-activated atom used by the C3 witness. -/
def wAtom3 : MemoryAtom :=
  { uuid := "w3", type := "user_message", text := "", concepts := none,
    activationScore := some (1 / 2), lastActivatedTurn := some 0 }

/-- Witness for C3 at a concrete atom, turn and Fibonacci index. -/
theorem decay_formula_and_fib_cap_witness :
    (decayAtom 0 wAtom3).activationScore = some (1 / 2)
    ∧ fibonacci 41 = fibonacci 40 := by
  have h := decay_formula_and_fib_cap wAtom3 0 41 (by norm_num)
  refine ⟨?_, h.2⟩
  rw [h.1]
  norm_num [wAtom3]

/-- C4 counterexample: the claim is false on the code.  The decayed
score strictly increases from age 1 to age 2, because the retained
fraction `1 - 1/fibonacci(t+2)` grows with `t`; and for a score below
the floor, age 0 returns the score itself, which is below `0.01`. -/
theorem decay_monotonicity_claim_false :
    decayScore 1 1 < decayScore 1 2 ∧ decayScore (1 / 200) 0 < 1 / 100 := by
  have f3 : fibonacci 3 = 3 := by rw [fibonacci_eq_fibTable]; decide
  have f4 : fibonacci 4 = 5 := by rw [fibonacci_eq_fibTable]; decide
  constructor
  · rw [decayScore_of_pos 1 (by norm_num), decayScore_of_pos 1 (by norm_num)]
    have h3 : ((1 : Int) + 2).toNat = 3 := by decide
    have h4 : ((2 : Int) + 2).toNat = 4 := by decide
    rw [h3, h4, f3, f4]
    rw [max_eq_right (by norm_num), max_eq_right (by norm_num)]
    norm_num
  · rw [decayScore_of_nonpos _ (by norm_num)]
    norm_num

/-- C4 amended: for a score in `[0.01, 1.0]`, the decayed score is
non-DEcreasing in the age on ages `≥ 1` (the code's single-application
decay hits young atoms hardest), never exceeds the undecayed score,
and never falls below `0.01` provided the score itself is at least
`0.01`. -/
theorem decay_bounds_amended (s : ℚ) (t1 t2 : Int) (hs1 : 1 / 100 ≤ s) (hs2 : s ≤ 1)
    (h1 : 1 ≤ t1) (h12 : t1 ≤ t2) :
    decayScore s t1 ≤ decayScore s t2
    ∧ ∀ t : Int, decayScore s t ≤ s ∧ 1 / 100 ≤ decayScore s t := by
  refine ⟨decayScore_mono_of_pos (le_trans (by norm_num) hs1) (by omega) h12, fun t => ?_⟩
  refine ⟨decayScore_le_self hs1, ?_⟩
  rcases le_or_lt t 0 with h | h
  · rw [decayScore_of_nonpos s h]
    exact hs1
  · exact le_decayScore_of_pos s h

/-- Witness for the amended C4 at a concrete score and concrete ages. -/
theorem decay_bounds_amended_witness :
    decayScore (1 / 2) 1 ≤ decayScore (1 / 2) 3
    ∧ decayScore (1 / 2) 7 ≤ 1 / 2 ∧ 1 / 100 ≤ decayScore (1 / 2) 7 := by
  have h := decay_bounds_amended (1 / 2) 1 3 (by norm_num) (by norm_num) (by norm_num)
    (by norm_num)
  exact ⟨h.1, h.2 7⟩

theorem recallFn_of_le {g : ConceptGraph} {memory : List MemoryAtom} {currentTurn : Int}
    (h : memory.length ≤ STM_CAPACITY) : recallFn g memory currentTurn = ⟨[], []⟩ := by
  rw [recallFn, if_pos h]

theorem recallFn_of_gt {g : ConceptGraph} {memory : List MemoryAtom} {currentTurn : Int}
    (h : STM_CAPACITY < memory.length) :
    recallFn g memory currentTurn =
      ⟨selectTop (ltmOf memory) (scoredMemoriesOf g memory currentTurn) LTM_RECALL_K,
       selectTop (ltmOf memory) (scoredAxiomsOf memory currentTurn) AXIOM_RECALL_K⟩ := by
  rw [recallFn, if_neg (by omega)]

/-- C5: for a log of at most 15 atoms, `recall` returns the explicit
empty result `{memories: [], axioms: []}` for every graph state and
turn; in the total embedding this also shows no exception is raised. -/
theorem recall_insufficient_history (g : ConceptGraph) (memory : List MemoryAtom)
    (currentTurn : Int) (h : memory.length ≤ 15) :
    recallFn g memory currentTurn = ⟨[], []⟩ :=
  recallFn_of_le (by simpa [STM_CAPACITY] using h)

/-- Witness for C5 on a concrete empty log. -/
theorem recall_insufficient_history_witness : recallFn [] [] 0 = ⟨[], []⟩ :=
  recall_insufficient_history [] [] 0 (by simp)

theorem length_selectTop (ltm : List MemoryAtom) (scored : List (MemoryAtom × ℚ)) (k : Nat) :
    (selectTop ltm scored k).length ≤ k :=
  le_trans (List.length_filterMap_le _ _) (List.length_take_le _ _)

theorem mem_selectTop {ltm : List MemoryAtom} {scored : List (MemoryAtom × ℚ)} {k : Nat}
    {a : MemoryAtom} (h : a ∈ selectTop ltm scored k) :
    ∃ p ∈ scored, 0 < p.2 ∧ a ∈ ltm ∧ a.uuid = p.1.uuid := by
  obtain ⟨p, hp, hfind⟩ := List.mem_filterMap.mp h
  have hp1 : p ∈ (scored.filter (fun p => decide (0 < p.2))).mergeSort scoreLE :=
    List.mem_of_mem_take hp
  have hp2 : p ∈ scored.filter (fun p => decide (0 < p.2)) :=
    (List.mergeSort_perm _ _).mem_iff.mp hp1
  have hps : p ∈ scored := List.mem_of_mem_filter hp2
  have hpos : 0 < p.2 := by simpa using List.of_mem_filter hp2
  have hmem : a ∈ ltm := List.mem_of_find?_eq_some hfind
  have huuid : a.uuid = p.1.uuid := by simpa using List.find?_some hfind
  exact ⟨p, hps, hpos, hmem, huuid⟩

theorem mem_take_of_mem_recall {g : ConceptGraph} {memory : List MemoryAtom}
    {currentTurn : Int} {a : MemoryAtom}
    (ha : a ∈ (recallFn g memory currentTurn).memories
      ∨ a ∈ (recallFn g memory currentTurn).axioms) :
    a ∈ memory.take (memory.length - 15) := by
  rcases le_or_lt memory.length STM_CAPACITY with h | h
  · rw [recallFn_of_le h] at ha
    rcases ha with ha | ha <;> simp at ha
  · rw [recallFn_of_gt h] at ha
    have hmem : a ∈ ltmOf memory := by
      rcases ha with ha | ha
      · exact (mem_selectTop ha).choose_spec.2.2.1
      · exact (mem_selectTop ha).choose_spec.2.2.1
    simpa [ltmOf, STM_CAPACITY] using hmem

/-- C6: `recall` returns at most 5 memories and at most 3 axioms, and
every returned atom lies in the first `length - 15` positions of the
input log (never in the last-15 working set). -/
theorem recall_bounded_and_ltm_only (g : ConceptGraph) (memory : List MemoryAtom)
    (currentTurn : Int) :
    (recallFn g memory currentTurn).memories.length ≤ 5
    ∧ (recallFn g memory currentTurn).axioms.length ≤ 3
    ∧ ∀ a : MemoryAtom,
        a ∈ (recallFn g memory currentTurn).memories
          ∨ a ∈ (recallFn g memory currentTurn).axioms →
        a ∈ memory.take (memory.length - 15) := by
  refine ⟨?_, ?_, fun a ha => mem_take_of_mem_recall ha⟩ <;>
    rcases le_or_lt memory.length STM_CAPACITY with h | h
  · rw [recallFn_of_le h]
    simp
  · rw [recallFn_of_gt h]
    exact length_selectTop _ _ _
  · rw [recallFn_of_le h]
    simp
  · rw [recallFn_of_gt h]
    exact length_selectTop _ _ _

/-- C9: every atom in either returned list of `recall` is an element
of the input log itself — the original, non-decayed canonical atom
(the decayed scoring copies live only inside the scoring pass); in the
pure embedding the input log is never mutated by construction. -/
theorem recall_returns_original_atoms (g : ConceptGraph) (memory : List MemoryAtom)
    (currentTurn : Int) :
    ∀ a : MemoryAtom,
      a ∈ (recallFn g memory currentTurn).memories
        ∨ a ∈ (recallFn g memory currentTurn).axioms →
      a ∈ memory := fun _ ha =>
  List.mem_of_mem_take (mem_take_of_mem_recall ha)

/-- A padding STM atom with no concepts, for concrete witnesses. -/
def wPad (u : String) : MemoryAtom :=
  { uuid := u, type := "user_message", text := "", concepts := some [],
    activationScore := some 1, lastActivatedTurn := some 0 }

/-- A concrete archive atom of the axiom category. -/
def wAxiomAtom : MemoryAtom :=
  { uuid := "ax", type := "axiom", text := "", concepts := some ["a"],
    activationScore := some 1, lastActivatedTurn := some 0 }

/-- A concrete working-set atom sharing concept `a` with `wAxiomAtom`. -/
def wStm1 : MemoryAtom :=
  { uuid := "s1", type := "user_message", text := "", concepts := some ["a"],
    activationScore := some 1, lastActivatedTurn := some 0 }

/-- A concrete 16-atom log: one archive axiom and 15 working-set atoms. -/
def wMem : List MemoryAtom :=
  [wAxiomAtom, wStm1, wPad "p2", wPad "p3", wPad "p4", wPad "p5", wPad "p6", wPad "p7",
   wPad "p8", wPad "p9", wPad "p10", wPad "p11", wPad "p12", wPad "p13", wPad "p14",
   wPad "p15"]

/-- Concrete evaluation of `recall` on the 16-atom log: the archive
axiom resonates with the working set and is returned. -/
theorem wMem_recall_eval : recallFn [] wMem 0 = ⟨[], [wAxiomAtom]⟩ := by
  rw [recallFn_of_gt (by simp [wMem, STM_CAPACITY])]
  norm_num [wMem, wAxiomAtom, wStm1, wPad, selectTop, ltmOf, stmOf, stmConceptsOf,
    followUpsOf, expandedOf, getFollowUpConcepts, followUpState, followUpStep,
    followUpConceptStep, mapGet, decayedLtmOf, scoredAxiomsOf, scoredMemoriesOf,
    decayAtom, decayScore, scoreAxiomAtom, scoreGeneralAtom, STM_CAPACITY,
    LTM_RECALL_K, AXIOM_RECALL_K, List.filterMap_cons, List.filterMap_nil]

/-- Witness for C6 on the concrete 16-atom log. -/
theorem recall_bounded_and_ltm_only_witness :
    (recallFn [] wMem 0).memories.length ≤ 5
    ∧ (recallFn [] wMem 0).axioms.length ≤ 3
    ∧ wAxiomAtom ∈ wMem.take (wMem.length - 15) := by
  have h := recall_bounded_and_ltm_only [] wMem 0
  refine ⟨h.1, h.2.1, h.2.2 wAxiomAtom ?_⟩
  rw [wMem_recall_eval]
  simp

/-- Witness for C9 on the concrete 16-atom log. -/
theorem recall_returns_original_atoms_witness : wAxiomAtom ∈ wMem := by
  refine recall_returns_original_atoms [] wMem 0 wAxiomAtom ?_
  rw [wMem_recall_eval]
  simp

theorem decayAtom_uuid (t : Int) (atom : MemoryAtom) : (decayAtom t atom).uuid = atom.uuid :=
  rfl

theorem decayAtom_type (t : Int) (atom : MemoryAtom) : (decayAtom t atom).type = atom.type :=
  rfl

theorem decayAtom_concepts (t : Int) (atom : MemoryAtom) :
    (decayAtom t atom).concepts = atom.concepts := rfl

theorem decayAtom_activationScore (t : Int) (atom : MemoryAtom) :
    (decayAtom t atom).activationScore =
      some (decayScore (atom.activationScore.getD 1) (t - atom.lastActivatedTurn.getD 0)) :=
  rfl

theorem filter_contains_toFinset {cs l : List String} (h : cs.Nodup) :
    (cs.filter (fun c => l.contains c)).length = (cs.toFinset ∩ l.toFinset).card := by
  rw [← List.toFinset_card_of_nodup (h.filter _)]
  congr 1
  ext a
  simp [List.mem_filter, List.contains, List.elem_iff, and_comm]

theorem scoreGeneralAtom_eq {expanded followUps : List String} {atom : MemoryAtom}
    {cs : List String} (hcs : atom.concepts = some cs) (hnd : cs.Nodup)
    (hsub : ∀ c ∈ followUps, c ∈ expanded) :
    scoreGeneralAtom expanded followUps atom =
      (((cs.toFinset ∩ expanded.toFinset).card : ℚ)
          + 2 * ((cs.toFinset ∩ followUps.toFinset).card : ℚ))
        * (if atom.type = "subconscious_reflection" then 11 / 10 else 1)
        * atom.activationScore.getD 1 := by
  rw [scoreGeneralAtom, hcs]
  simp only [Option.getD_some]
  rw [← filter_contains_toFinset hnd (l := expanded),
    ← filter_contains_toFinset hnd (l := followUps)]
  by_cases hg : expanded ≠ [] ∧ cs ≠ []
  · rw [if_pos hg]
    by_cases h0 : ((cs.filter (fun c => expanded.contains c)).length : ℚ)
        + 2 * ((cs.filter (fun c => followUps.contains c)).length : ℚ) = 0
    · rw [if_pos h0, h0, zero_mul, zero_mul]
    · rw [if_neg h0]
      by_cases hsubc : atom.type = "subconscious_reflection"
      · rw [if_pos hsubc, if_pos hsubc]
      · rw [if_neg hsubc, if_neg hsubc, mul_one]
  · rw [if_neg hg, if_pos rfl]
    rcases eq_or_ne expanded [] with he | he
    · have hfu : followUps = [] := by
        refine List.eq_nil_iff_forall_not_mem.mpr fun c hc => ?_
        have := hsub c hc
        simp [he] at this
      have h1 : (cs.filter (fun c => expanded.contains c)).length = 0 := by
        simp [he, List.contains]
      have h2 : (cs.filter (fun c => followUps.contains c)).length = 0 := by
        simp [hfu, List.contains]
      rw [h1, h2]
      norm_num
    · have hcse : cs = [] := by
        by_contra hne
        exact hg ⟨he, hne⟩
      have h1 : (cs.filter (fun c => expanded.contains c)).length = 0 := by
        simp [hcse]
      have h2 : (cs.filter (fun c => followUps.contains c)).length = 0 := by
        simp [hcse]
      rw [h1, h2]
      norm_num

theorem scoreAxiomAtom_eq {stmConcepts : List String} {atom : MemoryAtom}
    {cs : List String} (hcs : atom.concepts = some cs) (hnd : cs.Nodup) :
    scoreAxiomAtom stmConcepts atom =
      2 * ((cs.toFinset ∩ stmConcepts.toFinset).card : ℚ)
        * atom.activationScore.getD 1 := by
  rw [scoreAxiomAtom, hcs]
  simp only [Option.getD_some]
  rw [← filter_contains_toFinset hnd (l := stmConcepts)]
  by_cases hg : stmConcepts ≠ [] ∧ cs ≠ []
  · rw [if_pos hg]
    ring_nf
  · rw [if_neg hg]
    have h1 : (cs.filter (fun c => stmConcepts.contains c)).length = 0 := by
      rcases eq_or_ne stmConcepts [] with he | he
      · simp [he, List.contains]
      · have : cs = [] := by
          by_contra hne
          exact hg ⟨he, hne⟩
        simp [this]
    rw [h1]
    norm_num

theorem mem_scoredMemoriesOf {g : ConceptGraph} {memory : List MemoryAtom}
    {currentTurn : Int} {atom : MemoryAtom} (hmem : atom ∈ ltmOf memory)
    (htype : atom.type ≠ "axiom") :
    (decayAtom currentTurn atom,
      scoreGeneralAtom (expandedOf g memory) (followUpsOf g memory)
        (decayAtom currentTurn atom)) ∈ scoredMemoriesOf g memory currentTurn := by
  rw [scoredMemoriesOf]
  refine List.mem_map_of_mem _ ?_
  rw [List.mem_filter]
  refine ⟨List.mem_map_of_mem _ hmem, ?_⟩
  simpa [decayAtom_type] using htype

theorem mem_scoredAxiomsOf {memory : List MemoryAtom}
    {currentTurn : Int} {atom : MemoryAtom} (hmem : atom ∈ ltmOf memory)
    (htype : atom.type = "axiom") :
    (decayAtom currentTurn atom,
      scoreAxiomAtom (stmConceptsOf memory) (decayAtom currentTurn atom))
      ∈ scoredAxiomsOf memory currentTurn := by
  rw [scoredAxiomsOf]
  refine List.mem_map_of_mem _ ?_
  rw [List.mem_filter]
  refine ⟨List.mem_map_of_mem _ hmem, ?_⟩
  simpa [decayAtom_type] using htype

theorem of_mem_scoredMemoriesOf {g : ConceptGraph} {memory : List MemoryAtom}
    {currentTurn : Int} {p : MemoryAtom × ℚ}
    (hp : p ∈ scoredMemoriesOf g memory currentTurn) :
    ∃ orig ∈ ltmOf memory, orig.type ≠ "axiom" ∧ p.1 = decayAtom currentTurn orig
      ∧ p.2 = scoreGeneralAtom (expandedOf g memory) (followUpsOf g memory) p.1 := by
  rw [scoredMemoriesOf] at hp
  obtain ⟨a, ha, rfl⟩ := List.mem_map.mp hp
  rw [List.mem_filter] at ha
  obtain ⟨hadl, haty⟩ := ha
  rw [decayedLtmOf] at hadl
  obtain ⟨orig, horig, rfl⟩ := List.mem_map.mp hadl
  refine ⟨orig, horig, ?_, rfl, rfl⟩
  simpa [decayAtom_type] using haty

theorem of_mem_scoredAxiomsOf {memory : List MemoryAtom}
    {currentTurn : Int} {p : MemoryAtom × ℚ}
    (hp : p ∈ scoredAxiomsOf memory currentTurn) :
    ∃ orig ∈ ltmOf memory, orig.type = "axiom" ∧ p.1 = decayAtom currentTurn orig
      ∧ p.2 = scoreAxiomAtom (stmConceptsOf memory) p.1 := by
  rw [scoredAxiomsOf] at hp
  obtain ⟨a, ha, rfl⟩ := List.mem_map.mp hp
  rw [List.mem_filter] at ha
  obtain ⟨hadl, haty⟩ := ha
  rw [decayedLtmOf] at hadl
  obtain ⟨orig, horig, rfl⟩ := List.mem_map.mp hadl
  refine ⟨orig, horig, ?_, rfl, rfl⟩
  simpa [decayAtom_type] using haty

theorem ltm_uuid_nodup {memory : List MemoryAtom}
    (h : (memory.map MemoryAtom.uuid).Nodup) :
    ((ltmOf memory).map MemoryAtom.uuid).Nodup :=
  h.sublist ((List.take_sublist _ _).map _)

theorem pos_general_score_of_mem_memories {g : ConceptGraph} {memory : List MemoryAtom}
    {currentTurn : Int} {a : MemoryAtom}
    (hnd : (memory.map MemoryAtom.uuid).Nodup) (h15 : STM_CAPACITY < memory.length)
    (ha : a ∈ (recallFn g memory currentTurn).memories) :
    a ∈ ltmOf memory ∧ a.type ≠ "axiom"
      ∧ 0 < scoreGeneralAtom (expandedOf g memory) (followUpsOf g memory)
          (decayAtom currentTurn a) := by
  rw [recallFn_of_gt h15] at ha
  obtain ⟨p, hps, hpos, hmem, huuid⟩ := mem_selectTop ha
  obtain ⟨orig, horig, hotype, hp1, hp2⟩ := of_mem_scoredMemoriesOf hps
  have huuid2 : a.uuid = orig.uuid := by rw [huuid, hp1, decayAtom_uuid]
  have haorig : a = orig :=
    List.inj_on_of_nodup_map (ltm_uuid_nodup hnd) hmem horig huuid2
  subst haorig
  refine ⟨hmem, hotype, ?_⟩
  rw [hp2, hp1] at hpos
  exact hpos

theorem pos_axiom_score_of_mem_axioms {g : ConceptGraph} {memory : List MemoryAtom}
    {currentTurn : Int} {a : MemoryAtom}
    (hnd : (memory.map MemoryAtom.uuid).Nodup) (h15 : STM_CAPACITY < memory.length)
    (ha : a ∈ (recallFn g memory currentTurn).axioms) :
    a ∈ ltmOf memory ∧ a.type = "axiom"
      ∧ 0 < scoreAxiomAtom (stmConceptsOf memory) (decayAtom currentTurn a) := by
  rw [recallFn_of_gt h15] at ha
  obtain ⟨p, hps, hpos, hmem, huuid⟩ := mem_selectTop ha
  obtain ⟨orig, horig, hotype, hp1, hp2⟩ := of_mem_scoredAxiomsOf hps
  have huuid2 : a.uuid = orig.uuid := by rw [huuid, hp1, decayAtom_uuid]
  have haorig : a = orig :=
    List.inj_on_of_nodup_map (ltm_uuid_nodup hnd) hmem horig huuid2
  subst haorig
  refine ⟨hmem, hotype, ?_⟩
  rw [hp2, hp1] at hpos
  exact hpos

theorem shared_concept_of_pos_axiom_score {stmConcepts : List String} {atom : MemoryAtom}
    (h : 0 < scoreAxiomAtom stmConcepts atom) :
    ∃ c ∈ atom.concepts.getD [], c ∈ stmConcepts := by
  rw [scoreAxiomAtom] at h
  by_cases hg : stmConcepts ≠ [] ∧ atom.concepts.getD [] ≠ []
  · rw [if_pos hg] at h
    rcases List.eq_nil_or_concat ((atom.concepts.getD []).filter
        (fun c => stmConcepts.contains c)) with hnil | ⟨l2, b, hcons⟩
    · rw [hnil] at h
      norm_num at h
    · have hb : b ∈ (atom.concepts.getD []).filter (fun c => stmConcepts.contains c) := by
        rw [hcons]
        simp
      have hb1 : b ∈ atom.concepts.getD [] := List.mem_of_mem_filter hb
      have hb2 : stmConcepts.contains b := List.of_mem_filter hb
      refine ⟨b, hb1, ?_⟩
      simpa [List.contains, List.elem_iff] using hb2
  · rw [if_neg hg] at h
    norm_num at h

/-- C10: both returned lists of `recall` contain only atoms whose
(decayed) final score in their pool is strictly positive; in
particular an axiom sharing no concept with the STM concepts is never
returned, although the spec states the drop-on-zero-resonance rule
only for general memories.  The uuid-distinctness hypothesis reflects
that `uuid` identifies atoms uniquely. -/
theorem recall_positive_scores_only (g : ConceptGraph) (memory : List MemoryAtom)
    (currentTurn : Int) (hnd : (memory.map MemoryAtom.uuid).Nodup) :
    (∀ a ∈ (recallFn g memory currentTurn).memories,
        0 < scoreGeneralAtom (expandedOf g memory) (followUpsOf g memory)
          (decayAtom currentTurn a))
    ∧ ∀ a ∈ (recallFn g memory currentTurn).axioms,
        0 < scoreAxiomAtom (stmConceptsOf memory) (decayAtom currentTurn a)
        ∧ ∃ c ∈ a.concepts.getD [], c ∈ stmConceptsOf memory := by
  rcases le_or_lt memory.length STM_CAPACITY with h | h
  · rw [recallFn_of_le h]
    constructor
    · intro a ha
      simp at ha
    · intro a ha
      simp at ha
  · constructor
    · intro a ha
      exact (pos_general_score_of_mem_memories hnd h ha).2.2
    · intro a ha
      have hp := (pos_axiom_score_of_mem_axioms hnd h ha).2.2
      refine ⟨hp, ?_⟩
      have hs := shared_concept_of_pos_axiom_score hp
      rw [decayAtom_concepts] at hs
      exact hs

/-- Witness for C10 on the concrete 16-atom log. -/
theorem recall_positive_scores_only_witness :
    0 < scoreAxiomAtom (stmConceptsOf wMem) (decayAtom 0 wAxiomAtom)
    ∧ ∃ c ∈ wAxiomAtom.concepts.getD [], c ∈ stmConceptsOf wMem := by
  refine (recall_positive_scores_only [] wMem 0 (by decide)).2 wAxiomAtom ?_
  rw [wMem_recall_eval]
  simp

theorem followUps_subset_expanded (g : ConceptGraph) (memory : List MemoryAtom) :
    ∀ c ∈ followUpsOf g memory, c ∈ expandedOf g memory := by
  intro c hc
  rw [expandedOf]
  exact List.mem_append.mpr (Or.inr hc)

/-- The worked-scenario general atom of C1: two concepts, both in the
expanded query, one of them a predicted follow-up concept. -/
def wScenGeneral : MemoryAtom :=
  { uuid := "sg", type := "user_message", text := "", concepts := some ["c1", "c2"],
    activationScore := some 1, lastActivatedTurn := some 0 }

/-- The worked-scenario axiom of C2, sharing three concepts with the
working set. -/
def wScenAxiom : MemoryAtom :=
  { uuid := "sa", type := "axiom", text := "", concepts := some ["a", "b", "c"],
    activationScore := some 1, lastActivatedTurn := some 0 }

/-- The worked-scenario general atom of C2 with the identical
three-concept overlap, none of them follow-up concepts. -/
def wScenShared : MemoryAtom :=
  { uuid := "sh", type := "user_message", text := "", concepts := some ["a", "b", "c"],
    activationScore := some 1, lastActivatedTurn := some 0 }

/-- C1: in a log longer than 15 atoms, every non-axiom archive atom is
scored in the general pool with
`resonance = |concepts ∩ expanded| + 2 × |concepts ∩ followUps|`,
multiplied by 1.1 for `subconscious_reflection` atoms, and
`finalScore = resonance × decayedScore`; an atom whose resonance is 0
is excluded from the returned memories; and in the spec's worked
scenario (2 concepts in the expanded query, 1 of them a follow-up
concept) the pre-decay resonance is 4.0. -/
theorem general_memory_scoring (g : ConceptGraph) (memory : List MemoryAtom)
    (currentTurn : Int) (atom : MemoryAtom) (cs : List String)
    (h15 : STM_CAPACITY < memory.length)
    (hnd : (memory.map MemoryAtom.uuid).Nodup)
    (hmem : atom ∈ ltmOf memory) (htype : atom.type ≠ "axiom")
    (hcs : atom.concepts = some cs) (hnodup : cs.Nodup) :
    (decayAtom currentTurn atom,
        (((cs.toFinset ∩ (expandedOf g memory).toFinset).card : ℚ)
            + 2 * ((cs.toFinset ∩ (followUpsOf g memory).toFinset).card : ℚ))
          * (if atom.type = "subconscious_reflection" then 11 / 10 else 1)
          * decayScore (atom.activationScore.getD 1)
              (currentTurn - atom.lastActivatedTurn.getD 0))
      ∈ scoredMemoriesOf g memory currentTurn
    ∧ ((((cs.toFinset ∩ (expandedOf g memory).toFinset).card : ℚ)
          + 2 * ((cs.toFinset ∩ (followUpsOf g memory).toFinset).card : ℚ) = 0) →
        atom ∉ (recallFn g memory currentTurn).memories)
    ∧ scoreGeneralAtom ["c1", "c2"] ["c2"] wScenGeneral = 4 := by
  have hkey : scoreGeneralAtom (expandedOf g memory) (followUpsOf g memory)
      (decayAtom currentTurn atom) =
      (((cs.toFinset ∩ (expandedOf g memory).toFinset).card : ℚ)
          + 2 * ((cs.toFinset ∩ (followUpsOf g memory).toFinset).card : ℚ))
        * (if atom.type = "subconscious_reflection" then 11 / 10 else 1)
        * decayScore (atom.activationScore.getD 1)
            (currentTurn - atom.lastActivatedTurn.getD 0) := by
    rw [scoreGeneralAtom_eq (by rw [decayAtom_concepts, hcs]) hnodup
      (followUps_subset_expanded g memory)]
    rw [decayAtom_type, decayAtom_activationScore]
    simp only [Option.getD_some]
  refine ⟨?_, ?_, ?_⟩
  · rw [← hkey]
    exact mem_scoredMemoriesOf hmem htype
  · intro hb hcontra
    have hpos := (pos_general_score_of_mem_memories hnd h15 hcontra).2.2
    rw [hkey, hb] at hpos
    norm_num at hpos
  · simp [scoreGeneralAtom, wScenGeneral, List.contains, List.filter, String.reduceEq,
      List.cons_ne_nil]
    norm_num

/-- C2: in a log longer than 15 atoms, every axiom-category archive
atom is scored in the separate axiom pool with
`resonance = 2 × |concepts ∩ STM-concepts|` (no follow-up boost, no
1.1 multiplier) and `finalScore = resonance × decayedScore`; in the
spec's worked scenario an axiom sharing 3 concepts with the STM set
has pre-decay resonance 6, while a general atom with the identical
overlap (none of them follow-up concepts) has pre-decay resonance 3. -/
theorem axiom_pool_scoring (memory : List MemoryAtom)
    (currentTurn : Int) (atom : MemoryAtom) (cs : List String)
    (hmem : atom ∈ ltmOf memory) (htype : atom.type = "axiom")
    (hcs : atom.concepts = some cs) (hnodup : cs.Nodup) :
    (decayAtom currentTurn atom,
        2 * ((cs.toFinset ∩ (stmConceptsOf memory).toFinset).card : ℚ)
          * decayScore (atom.activationScore.getD 1)
              (currentTurn - atom.lastActivatedTurn.getD 0))
      ∈ scoredAxiomsOf memory currentTurn
    ∧ scoreAxiomAtom ["a", "b", "c"] wScenAxiom = 6
    ∧ scoreGeneralAtom ["a", "b", "c"] [] wScenShared = 3 := by
  have hkey : scoreAxiomAtom (stmConceptsOf memory) (decayAtom currentTurn atom) =
      2 * ((cs.toFinset ∩ (stmConceptsOf memory).toFinset).card : ℚ)
        * decayScore (atom.activationScore.getD 1)
            (currentTurn - atom.lastActivatedTurn.getD 0) := by
    rw [scoreAxiomAtom_eq (by rw [decayAtom_concepts, hcs]) hnodup]
    rw [decayAtom_activationScore]
    simp only [Option.getD_some]
  refine ⟨?_, ?_, ?_⟩
  · rw [← hkey]
    exact mem_scoredAxiomsOf hmem htype
  · simp [scoreAxiomAtom, wScenAxiom, List.contains, List.filter, String.reduceEq,
      List.cons_ne_nil]
    norm_num
  · simp [scoreGeneralAtom, wScenShared, List.contains, List.filter, String.reduceEq,
      List.cons_ne_nil]

/-- A concrete general (non-axiom) archive atom for the C1 witness. -/
def wGen : MemoryAtom :=
  { uuid := "g1", type := "user_message", text := "", concepts := some ["a"],
    activationScore := some 1, lastActivatedTurn := some 0 }

/-- A concrete 16-atom log whose archive holds one general atom. -/
def wMemG : List MemoryAtom :=
  [wGen, wStm1, wPad "p2", wPad "p3", wPad "p4", wPad "p5", wPad "p6", wPad "p7",
   wPad "p8", wPad "p9", wPad "p10", wPad "p11", wPad "p12", wPad "p13", wPad "p14",
   wPad "p15"]

/-- Witness for C1 at concrete log, atom and scenario inputs. -/
theorem general_memory_scoring_witness :
    (decayAtom 0 wGen,
      ((((["a"] : List String).toFinset ∩ (expandedOf [] wMemG).toFinset).card : ℚ)
          + 2 * (((["a"] : List String).toFinset ∩ (followUpsOf [] wMemG).toFinset).card : ℚ))
        * (if wGen.type = "subconscious_reflection" then 11 / 10 else 1)
        * decayScore (wGen.activationScore.getD 1) (0 - wGen.lastActivatedTurn.getD 0))
      ∈ scoredMemoriesOf [] wMemG 0
    ∧ scoreGeneralAtom ["c1", "c2"] ["c2"] wScenGeneral = 4 := by
  have h := general_memory_scoring [] wMemG 0 wGen ["a"] (by decide) (by decide)
    (by decide) (by decide) rfl (by decide)
  exact ⟨h.1, h.2.2⟩

/-- Witness for C2 at concrete log, atom and scenario inputs. -/
theorem axiom_pool_scoring_witness :
    (decayAtom 0 wAxiomAtom,
        2 * (((["a"] : List String).toFinset ∩ (stmConceptsOf wMem).toFinset).card : ℚ)
          * decayScore (wAxiomAtom.activationScore.getD 1)
              (0 - wAxiomAtom.lastActivatedTurn.getD 0))
      ∈ scoredAxiomsOf wMem 0
    ∧ scoreAxiomAtom ["a", "b", "c"] wScenAxiom = 6
    ∧ scoreGeneralAtom ["a", "b", "c"] [] wScenShared = 3 :=
  axiom_pool_scoring wMem 0 wAxiomAtom ["a"] (by decide) (by decide) rfl (by decide)

theorem compositeKey_inj {ty a b : String} (h : ty ++ ":" ++ a = ty ++ ":" ++ b) :
    a = b := by
  have hd := congrArg String.data h
  simp only [String.data_append] at hd
  exact String.ext (List.append_cancel_left hd)

theorem mapGet_mapSet_self {α : Type} (m : JsMap α) (k : String) (v : α) :
    mapGet (mapSet m k v) k = some v := by
  rw [mapSet]
  by_cases hany : m.any (fun p => p.1 == k)
  · rw [if_pos hany, mapGet, List.find?_map]
    have hpred : ((fun p : String × α => p.1 == k) ∘
        fun p : String × α => if p.1 == k then (k, v) else p) =
        fun p : String × α => p.1 == k := by
      funext p
      by_cases hp : p.1 == k
      · simp [Function.comp, hp]
      · simp [Function.comp, hp]
    rw [hpred]
    obtain ⟨p0, hp0m, hp0⟩ := List.any_eq_true.mp hany
    have hsome : (m.find? (fun p => p.1 == k)).isSome :=
      List.find?_isSome.mpr ⟨p0, hp0m, hp0⟩
    obtain ⟨q, hq⟩ := Option.isSome_iff_exists.mp hsome
    have hqk := List.find?_some hq
    rw [hq]
    have hqk' : q.1 = k := by simpa using hqk
    simp [Option.map_map, Function.comp, hqk']
  · rw [if_neg hany, mapGet, List.find?_append]
    have hnone : m.find? (fun p => p.1 == k) = none := by
      rw [List.find?_eq_none]
      intro x hx hxk
      exact hany (List.any_eq_true.mpr ⟨x, hx, hxk⟩)
    rw [hnone]
    simp

theorem mapGet_mapSet_ne {α : Type} (m : JsMap α) {k k' : String} (v : α) (h : k' ≠ k) :
    mapGet (mapSet m k v) k' = mapGet m k' := by
  rw [mapSet]
  by_cases hany : m.any (fun p => p.1 == k)
  · rw [if_pos hany, mapGet, List.find?_map]
    have hpred : ((fun p : String × α => p.1 == k') ∘
        fun p : String × α => if p.1 == k then (k, v) else p) =
        fun p : String × α => p.1 == k' := by
      funext p
      by_cases hp : p.1 == k
      · have hp' : p.1 = k := by simpa using hp
        have h1 : (k == k') = false := by
          simp [Ne.symm h]
        simp [Function.comp, hp, h1, hp', Ne.symm h]
      · simp [Function.comp, hp]
    rw [hpred, mapGet]
    rcases hfind : m.find? (fun p => p.1 == k') with _ | q
    · rw [hfind]
      simp
    · have hqk := List.find?_some hfind
      have hq' : q.1 = k' := by simpa using hqk
      rw [hfind]
      simp [Function.comp, hq', h]
  · rw [if_neg hany, mapGet, List.find?_append]
    rcases hfind : m.find? (fun p => p.1 == k') with _ | q
    · have hkk : (k == k') = false := by simp [Ne.symm h]
      simp [mapGet, hfind, hkk]
    · simp [mapGet, hfind]

theorem addTargetEdges_nil (ty : String) (tr : JsMap ℚ) : addTargetEdges ty [] tr = tr := rfl

theorem addTargetEdges_cons (ty t : String) (ts : List String) (tr : JsMap ℚ) :
    addTargetEdges ty (t :: ts) tr =
      addTargetEdges ty ts
        (mapSet tr (ty ++ ":" ++ t) ((mapGet tr (ty ++ ":" ++ t)).getD 0 + 1)) := rfl

theorem addTargetEdges_get_not_mem {ty k : String} {ts : List String}
    (h : ∀ t ∈ ts, k ≠ ty ++ ":" ++ t) (tr : JsMap ℚ) :
    mapGet (addTargetEdges ty ts tr) k = mapGet tr k := by
  induction ts generalizing tr with
  | nil => rfl
  | cons t ts ih =>
    rw [addTargetEdges_cons, ih (fun t' ht' => h t' (List.mem_cons_of_mem _ ht'))]
    exact mapGet_mapSet_ne _ _ (h t (List.mem_cons_self _ _))

theorem addTargetEdges_get_mem {ty : String} {ts : List String} (hnd : ts.Nodup)
    {t : String} (ht : t ∈ ts) (tr : JsMap ℚ) :
    mapGet (addTargetEdges ty ts tr) (ty ++ ":" ++ t) =
      some ((mapGet tr (ty ++ ":" ++ t)).getD 0 + 1) := by
  induction ts generalizing tr with
  | nil => cases ht
  | cons u ts ih =>
    rw [addTargetEdges_cons]
    rcases List.mem_cons.mp ht with rfl | htts
    · have hnotin : t ∉ ts := (List.nodup_cons.mp hnd).1
      have hne : ∀ t' ∈ ts, ty ++ ":" ++ t ≠ ty ++ ":" ++ t' := by
        intro t' ht' heq
        exact hnotin (by rwa [compositeKey_inj heq])
      rw [addTargetEdges_get_not_mem hne]
      exact mapGet_mapSet_self _ _ _
    · have hun : u ≠ t := by
        rintro rfl
        exact (List.nodup_cons.mp hnd).1 htts
      rw [ih (List.nodup_cons.mp hnd).2 htts]
      have hne : ty ++ ":" ++ t ≠ ty ++ ":" ++ u := by
        intro heq
        exact hun (compositeKey_inj heq).symm
      rw [mapGet_mapSet_ne _ _ hne]

theorem trainSourceFold_nil (sTy tTy : String) (tgt : List String) (g : ConceptGraph) :
    trainSourceFold sTy tTy tgt [] g = g := rfl

theorem trainSourceFold_cons (sTy tTy s : String) (tgt src : List String) (g : ConceptGraph) :
    trainSourceFold sTy tTy tgt (s :: src) g =
      trainSourceFold sTy tTy tgt src
        (mapSet g (sTy ++ ":" ++ s)
          (addTargetEdges tTy tgt ((mapGet g (sTy ++ ":" ++ s)).getD []))) := rfl

theorem trainSourceFold_get_not_mem {sTy tTy k1 : String} {tgt src : List String}
    (h : ∀ s ∈ src, k1 ≠ sTy ++ ":" ++ s) (g : ConceptGraph) :
    mapGet (trainSourceFold sTy tTy tgt src g) k1 = mapGet g k1 := by
  induction src generalizing g with
  | nil => rfl
  | cons s src ih =>
    rw [trainSourceFold_cons, ih (fun s' hs' => h s' (List.mem_cons_of_mem _ hs'))]
    exact mapGet_mapSet_ne _ _ (h s (List.mem_cons_self _ _))

theorem trainSourceFold_get_mem {sTy tTy : String} {tgt src : List String}
    (hnd : src.Nodup) {s : String} (hs : s ∈ src) (g : ConceptGraph) :
    mapGet (trainSourceFold sTy tTy tgt src g) (sTy ++ ":" ++ s) =
      some (addTargetEdges tTy tgt ((mapGet g (sTy ++ ":" ++ s)).getD [])) := by
  induction src generalizing g with
  | nil => cases hs
  | cons u src ih =>
    rw [trainSourceFold_cons]
    rcases List.mem_cons.mp hs with rfl | hsrc
    · have hnotin : s ∉ src := (List.nodup_cons.mp hnd).1
      have hne : ∀ s' ∈ src, sTy ++ ":" ++ s ≠ sTy ++ ":" ++ s' := by
        intro s' hs' heq
        exact hnotin (by rwa [compositeKey_inj heq])
      rw [trainSourceFold_get_not_mem hne]
      exact mapGet_mapSet_self _ _ _
    · have hun : u ≠ s := by
        rintro rfl
        exact (List.nodup_cons.mp hnd).1 hsrc
      have hne : sTy ++ ":" ++ s ≠ sTy ++ ":" ++ u := by
        intro heq
        exact hun (compositeKey_inj heq).symm
      rw [ih (List.nodup_cons.mp hnd).2 hsrc, mapGet_mapSet_ne _ _ hne]

/-- C8: with an empty (resolved) concept list on either side,
`trainOnTransition` returns the graph unchanged; otherwise it adds
exactly 1 to the weight of every edge from a source composite key
`'sourceType:sourceConcept'` to a target composite key
`'targetType:targetConcept'` and leaves every other edge weight
unchanged.  The concept lists are duplicate-free per the data model
(an atom's concepts are a set of phrases). -/
theorem train_on_transition_effect (g : ConceptGraph) (sourceAtom targetAtom : MemoryAtom)
    (srcExtracted tgtExtracted : List String)
    (hsnd : (sourceAtom.concepts.getD srcExtracted).Nodup)
    (htnd : (targetAtom.concepts.getD tgtExtracted).Nodup) :
    ((sourceAtom.concepts.getD srcExtracted = [] ∨ targetAtom.concepts.getD tgtExtracted = []) →
      trainOnTransition g sourceAtom targetAtom srcExtracted tgtExtracted = g)
    ∧ (sourceAtom.concepts.getD srcExtracted ≠ [] → targetAtom.concepts.getD tgtExtracted ≠ [] →
      ∀ k1 k2 : String,
        edgeWeight (trainOnTransition g sourceAtom targetAtom srcExtracted tgtExtracted) k1 k2 =
          if ∃ s ∈ sourceAtom.concepts.getD srcExtracted,
              ∃ t ∈ targetAtom.concepts.getD tgtExtracted,
              k1 = sourceAtom.type ++ ":" ++ s ∧ k2 = targetAtom.type ++ ":" ++ t
          then edgeWeight g k1 k2 + 1
          else edgeWeight g k1 k2) := by
  constructor
  · intro hempty
    rw [trainOnTransition, if_pos]
    rcases hempty with he | he <;> simp [he]
  · intro hse hte k1 k2
    rw [trainOnTransition, if_neg (by simp [List.isEmpty_iff, hse, hte])]
    by_cases hcond : ∃ s ∈ sourceAtom.concepts.getD srcExtracted,
        ∃ t ∈ targetAtom.concepts.getD tgtExtracted,
        k1 = sourceAtom.type ++ ":" ++ s ∧ k2 = targetAtom.type ++ ":" ++ t
    · rw [if_pos hcond]
      obtain ⟨s, hs, t, ht, hk1, hk2⟩ := hcond
      subst hk1
      subst hk2
      rw [edgeWeight, trainSourceFold_get_mem hsnd hs g]
      rw [edgeWeight]
      simp only [Option.getD_some]
      rw [addTargetEdges_get_mem htnd ht]
      simp
    · rw [if_neg hcond]
      by_cases hksrc : ∃ s ∈ sourceAtom.concepts.getD srcExtracted,
          k1 = sourceAtom.type ++ ":" ++ s
      · obtain ⟨s, hs, hk1⟩ := hksrc
        subst hk1
        have hknotgt : ∀ t ∈ targetAtom.concepts.getD tgtExtracted,
            k2 ≠ targetAtom.type ++ ":" ++ t := by
          intro t ht heq
          exact hcond ⟨s, hs, t, ht, rfl, heq⟩
        rw [edgeWeight, trainSourceFold_get_mem hsnd hs g]
        rw [edgeWeight]
        simp only [Option.getD_some]
        rw [addTargetEdges_get_not_mem hknotgt]
      · have hknosrc : ∀ s ∈ sourceAtom.concepts.getD srcExtracted,
            k1 ≠ sourceAtom.type ++ ":" ++ s := by
          intro s hs heq
          exact hksrc ⟨s, hs, heq⟩
        rw [edgeWeight, trainSourceFold_get_not_mem hknosrc, edgeWeight]

/-- A concrete source atom for the C8 witness. -/
def wSrc : MemoryAtom :=
  { uuid := "src", type := "user_message", text := "", concepts := some ["s1c", "s2c"],
    activationScore := some 1, lastActivatedTurn := some 0 }

/-- A concrete target atom for the C8 witness. -/
def wTgt : MemoryAtom :=
  { uuid := "tgt", type := "model_response", text := "", concepts := some ["t1c"],
    activationScore := some 1, lastActivatedTurn := some 0 }

/-- A concrete target atom with zero concepts for the C8 witness. -/
def wTgt0 : MemoryAtom :=
  { uuid := "tgt0", type := "model_response", text := "", concepts := some [],
    activationScore := some 1, lastActivatedTurn := some 0 }

/-- Witness for C8: one trained edge on concrete atoms, and the no-op
on a zero-concept target. -/
theorem train_on_transition_effect_witness :
    (edgeWeight (trainOnTransition [] wSrc wTgt [] []) "user_message:s1c" "model_response:t1c" =
      if ∃ s ∈ wSrc.concepts.getD [], ∃ t ∈ wTgt.concepts.getD [],
          "user_message:s1c" = wSrc.type ++ ":" ++ s
            ∧ "model_response:t1c" = wTgt.type ++ ":" ++ t
      then edgeWeight [] "user_message:s1c" "model_response:t1c" + 1
      else edgeWeight [] "user_message:s1c" "model_response:t1c")
    ∧ trainOnTransition [] wSrc wTgt0 [] [] = [] := by
  constructor
  · exact (train_on_transition_effect [] wSrc wTgt [] [] (by decide) (by decide)).2
      (by decide) (by decide) "user_message:s1c" "model_response:t1c"
  · exact (train_on_transition_effect [] wSrc wTgt0 [] [] (by decide) (by decide)).1
      (Or.inr rfl)

/-- The specification-side aggregated weight of a predicted concept
`c` (spec 4.1): the sum, over every (source atom, concept) occurrence,
of the weights of that node's outgoing transitions whose target
concept — category dropped — is `c`.  Compared against the imperative
association map built by `getFollowUpConcepts`. -/
def aggWeightSpec (g : ConceptGraph) (atoms : List MemoryAtom) (c : String) : ℚ :=
  (atoms.map (fun atom =>
    ((atom.concepts.getD []).map (fun concept =>
      ((((mapGet g (atom.type ++ ":" ++ concept)).getD []).filter
        (fun p => dropCategory p.1 == c)).map Prod.snd).sum)).sum)).sum

theorem addTransitionWeights_nil (m : JsMap ℚ) : addTransitionWeights [] m = m := rfl

theorem addTransitionWeights_cons (p : String × ℚ) (ts : JsMap ℚ) (m : JsMap ℚ) :
    addTransitionWeights (p :: ts) m =
      addTransitionWeights ts
        (mapSet m (dropCategory p.1) ((mapGet m (dropCategory p.1)).getD 0 + p.2)) := rfl

theorem addTransitionWeights_get (ts : JsMap ℚ) (m : JsMap ℚ) (c : String) :
    (mapGet (addTransitionWeights ts m) c).getD 0 =
      (mapGet m c).getD 0
        + ((ts.filter (fun p => dropCategory p.1 == c)).map Prod.snd).sum := by
  induction ts generalizing m with
  | nil => simp [addTransitionWeights_nil]
  | cons p ts ih =>
    rw [addTransitionWeights_cons, ih]
    by_cases hc : dropCategory p.1 = c
    · rw [hc, mapGet_mapSet_self]
      have hpred : (dropCategory p.1 == c) = true := by simp [hc]
      rw [List.filter_cons, if_pos hpred]
      simp only [Option.getD_some, List.map_cons, List.sum_cons]
      ring
    · have hne : c ≠ dropCategory p.1 := Ne.symm hc
      rw [mapGet_mapSet_ne _ _ hne]
      have hpred : ¬((dropCategory p.1 == c) = true) := by simp [hc]
      rw [List.filter_cons, if_neg hpred]

theorem followUpConceptStep_get (g : ConceptGraph) (ty concept : String)
    (acc : JsMap ℚ × List String) (c : String) :
    (mapGet (followUpConceptStep g ty acc concept).1 c).getD 0 =
      (mapGet acc.1 c).getD 0
        + ((((mapGet g (ty ++ ":" ++ concept)).getD []).filter
            (fun p => dropCategory p.1 == c)).map Prod.snd).sum := by
  rcases hk : mapGet g (ty ++ ":" ++ concept) with _ | ts
  · simp [followUpConceptStep, hk]
  · simp [followUpConceptStep, hk, addTransitionWeights_get]

theorem foldl_conceptStep_get (g : ConceptGraph) (ty : String) (cs : List String)
    (acc : JsMap ℚ × List String) (c : String) :
    (mapGet (cs.foldl (followUpConceptStep g ty) acc).1 c).getD 0 =
      (mapGet acc.1 c).getD 0
        + (cs.map (fun concept =>
            ((((mapGet g (ty ++ ":" ++ concept)).getD []).filter
              (fun p => dropCategory p.1 == c)).map Prod.snd).sum)).sum := by
  induction cs generalizing acc with
  | nil => simp
  | cons concept cs ih =>
    rw [List.foldl_cons, ih, followUpConceptStep_get]
    simp only [List.map_cons, List.sum_cons]
    ring

theorem followUpStep_get (g : ConceptGraph) (atom : MemoryAtom)
    (acc : JsMap ℚ × List String) (c : String) :
    (mapGet (followUpStep g acc atom).1 c).getD 0 =
      (mapGet acc.1 c).getD 0
        + ((atom.concepts.getD []).map (fun concept =>
            ((((mapGet g (atom.type ++ ":" ++ concept)).getD []).filter
              (fun p => dropCategory p.1 == c)).map Prod.snd).sum)).sum :=
  foldl_conceptStep_get g atom.type (atom.concepts.getD []) acc c

theorem foldl_followUpStep_get (g : ConceptGraph) (atoms : List MemoryAtom)
    (acc : JsMap ℚ × List String) (c : String) :
    (mapGet (atoms.foldl (followUpStep g) acc).1 c).getD 0 =
      (mapGet acc.1 c).getD 0 + aggWeightSpec g atoms c := by
  induction atoms generalizing acc with
  | nil => simp [aggWeightSpec]
  | cons atom atoms ih =>
    rw [List.foldl_cons, ih, followUpStep_get]
    simp only [aggWeightSpec, List.map_cons, List.sum_cons]
    ring

theorem followUpState_get (g : ConceptGraph) (atoms : List MemoryAtom) (c : String) :
    (mapGet (followUpState g atoms).1 c).getD 0 = aggWeightSpec g atoms c := by
  rw [followUpState, foldl_followUpStep_get]
  simp [mapGet]

theorem mapSet_keys_nodup {α : Type} {m : JsMap α} (h : (m.map Prod.fst).Nodup)
    (k : String) (v : α) : ((mapSet m k v).map Prod.fst).Nodup := by
  rw [mapSet]
  by_cases hany : m.any (fun p => p.1 == k)
  · rw [if_pos hany, List.map_map]
    have hfst : ∀ p ∈ m, (Prod.fst ∘ fun p : String × α => if p.1 == k then (k, v) else p) p
        = Prod.fst p := by
      intro p hp
      by_cases hpk : p.1 == k
      · have : p.1 = k := by simpa using hpk
        simp [Function.comp, hpk, this]
      · simp [Function.comp, hpk]
    rw [List.map_congr_left hfst]
    exact h
  · rw [if_neg hany, List.map_append]
    refine h.append (List.nodup_singleton k) ?_
    intro a ha hak
    have hak' : a = k := by simpa using hak
    subst hak'
    obtain ⟨p, hp, rfl⟩ := List.mem_map.mp ha
    exact hany (List.any_eq_true.mpr ⟨p, hp, by simp⟩)

theorem addTransitionWeights_keys_nodup {ts m : JsMap ℚ}
    (h : (m.map Prod.fst).Nodup) : ((addTransitionWeights ts m).map Prod.fst).Nodup := by
  induction ts generalizing m with
  | nil => exact h
  | cons p ts ih =>
    rw [addTransitionWeights_cons]
    exact ih (mapSet_keys_nodup h _ _)

theorem followUpConceptStep_keys_nodup {g : ConceptGraph} {ty : String}
    {acc : JsMap ℚ × List String} (h : (acc.1.map Prod.fst).Nodup) (concept : String) :
    ((followUpConceptStep g ty acc concept).1.map Prod.fst).Nodup := by
  rcases hk : mapGet g (ty ++ ":" ++ concept) with _ | ts
  · simpa [followUpConceptStep, hk] using h
  · simpa [followUpConceptStep, hk] using addTransitionWeights_keys_nodup h

theorem followUpStep_keys_nodup {g : ConceptGraph} {acc : JsMap ℚ × List String}
    (h : (acc.1.map Prod.fst).Nodup) (atom : MemoryAtom) :
    ((followUpStep g acc atom).1.map Prod.fst).Nodup := by
  rw [followUpStep]
  generalize atom.concepts.getD [] = cs
  induction cs generalizing acc with
  | nil => exact h
  | cons concept cs ih =>
    rw [List.foldl_cons]
    exact ih (followUpConceptStep_keys_nodup h concept)

theorem followUpState_keys_nodup (g : ConceptGraph) (atoms : List MemoryAtom) :
    ((followUpState g atoms).1.map Prod.fst).Nodup := by
  rw [followUpState]
  have h0 : ((([], []) : JsMap ℚ × List String).1.map Prod.fst).Nodup := List.nodup_nil
  generalize hacc : (([], []) : JsMap ℚ × List String) = acc at h0
  clear hacc
  induction atoms generalizing acc with
  | nil => exact h0
  | cons atom atoms ih =>
    rw [List.foldl_cons]
    exact ih _ (followUpStep_keys_nodup h0 atom)

theorem mapGet_of_mem {α : Type} {m : JsMap α} (hnd : (m.map Prod.fst).Nodup)
    {p : String × α} (hp : p ∈ m) : mapGet m p.1 = some p.2 := by
  induction m with
  | nil => cases hp
  | cons q m ih =>
    rcases List.mem_cons.mp hp with rfl | hpm
    · rw [mapGet, List.find?_cons_of_pos _ (by simp)]
      rfl
    · have hq : q.1 ∉ m.map Prod.fst := (List.nodup_cons.mp (by simpa using hnd)).1
      have hne : ¬((q.1 == p.1) = true) := by
        intro hqp
        have : q.1 = p.1 := by simpa using hqp
        exact hq (this ▸ List.mem_map_of_mem Prod.fst hpm)
      rw [mapGet, @List.find?_cons_of_neg _ (fun r => r.1 == p.1) q m hne]
      exact ih (List.nodup_cons.mp (by simpa using hnd)).2 hpm

theorem followUpConceptStep_snd_superset {g : ConceptGraph} {ty : String}
    {acc : JsMap ℚ × List String} {concept x : String} (hx : x ∈ acc.2) :
    x ∈ (followUpConceptStep g ty acc concept).2 := by
  rcases hk : mapGet g (ty ++ ":" ++ concept) with _ | ts <;>
    by_cases hc : concept ∈ acc.2 <;>
      simp [followUpConceptStep, hk, hc, hx]

theorem followUpConceptStep_snd_self {g : ConceptGraph} {ty : String}
    {acc : JsMap ℚ × List String} {concept : String} :
    concept ∈ (followUpConceptStep g ty acc concept).2 := by
  rcases hk : mapGet g (ty ++ ":" ++ concept) with _ | ts <;>
    by_cases hc : concept ∈ acc.2 <;>
      simp [followUpConceptStep, hk, hc]

theorem foldl_conceptStep_snd_superset {g : ConceptGraph} {ty : String}
    (cs : List String) {acc : JsMap ℚ × List String} {x : String} (hx : x ∈ acc.2) :
    x ∈ (cs.foldl (followUpConceptStep g ty) acc).2 := by
  induction cs generalizing acc with
  | nil => exact hx
  | cons concept cs ih =>
    rw [List.foldl_cons]
    exact ih (followUpConceptStep_snd_superset hx)

theorem mem_foldl_conceptStep_snd {g : ConceptGraph} {ty : String}
    {cs : List String} {c : String} (hc : c ∈ cs) (acc : JsMap ℚ × List String) :
    c ∈ (cs.foldl (followUpConceptStep g ty) acc).2 := by
  induction cs generalizing acc with
  | nil => cases hc
  | cons concept cs ih =>
    rw [List.foldl_cons]
    rcases List.mem_cons.mp hc with rfl | hcs
    · exact foldl_conceptStep_snd_superset cs followUpConceptStep_snd_self
    · exact ih hcs _

theorem followUpStep_snd_superset {g : ConceptGraph} {acc : JsMap ℚ × List String}
    {x : String} (hx : x ∈ acc.2) (atom : MemoryAtom) :
    x ∈ (followUpStep g acc atom).2 :=
  foldl_conceptStep_snd_superset _ hx

theorem foldl_followUpStep_snd_superset {g : ConceptGraph} (atoms : List MemoryAtom)
    {acc : JsMap ℚ × List String} {x : String} (hx : x ∈ acc.2) :
    x ∈ (atoms.foldl (followUpStep g) acc).2 := by
  induction atoms generalizing acc with
  | nil => exact hx
  | cons a atoms ih =>
    rw [List.foldl_cons]
    exact ih (followUpStep_snd_superset hx a)

theorem mem_followUpState_snd {g : ConceptGraph} {atoms : List MemoryAtom}
    {atom : MemoryAtom} (ha : atom ∈ atoms) {c : String}
    (hc : c ∈ atom.concepts.getD []) : c ∈ (followUpState g atoms).2 := by
  rw [followUpState]
  have haux : ∀ (rest : List MemoryAtom) (acc : JsMap ℚ × List String), atom ∈ rest →
      c ∈ (rest.foldl (followUpStep g) acc).2 := by
    intro rest
    induction rest with
    | nil =>
      intro acc h
      cases h
    | cons a rest ih =>
      intro acc h
      rw [List.foldl_cons]
      rcases List.mem_cons.mp h with rfl | hrest
      · exact foldl_followUpStep_snd_superset rest (mem_foldl_conceptStep_snd hc acc)
      · exact ih _ hrest
  exact haux atoms ([], []) ha

theorem sublist_pair_of_mem {α : Type} {l : List α} {a b : α} (ha : a ∈ l) (hb : b ∈ l)
    (hne : a ≠ b) : [a, b].Sublist l ∨ [b, a].Sublist l := by
  induction l with
  | nil => cases ha
  | cons x l ih =>
    rcases List.mem_cons.mp ha with rfl | ha'
    · have hb' : b ∈ l := by
        rcases List.mem_cons.mp hb with rfl | h
        · exact absurd rfl hne
        · exact h
      exact Or.inl (List.Sublist.cons₂ a (List.singleton_sublist.mpr hb'))
    · rcases List.mem_cons.mp hb with rfl | hb'
      · exact Or.inr (List.Sublist.cons₂ b (List.singleton_sublist.mpr ha'))
      · rcases ih ha' hb' with h | h
        · exact Or.inl (h.cons x)
        · exact Or.inr (h.cons x)

theorem pair_sublist_getElem {α : Type} {l : List α} {a b : α} (h : [a, b].Sublist l) :
    ∃ (i j : Nat) (hi : i < l.length) (hj : j < l.length),
      i < j ∧ l[i] = a ∧ l[j] = b := by
  induction l with
  | nil => simp at h
  | cons x l ih =>
    cases h with
    | cons _ h' =>
      obtain ⟨i, j, hi, hj, hij, hia, hjb⟩ := ih h'
      exact ⟨i + 1, j + 1, by simpa using hi, by simpa using hj, by omega,
        by simpa using hia, by simpa using hjb⟩
    | cons₂ _ h' =>
      have hb : b ∈ l := List.singleton_sublist.mp h'
      obtain ⟨j, hj, hjb⟩ := List.mem_iff_getElem.mp hb
      exact ⟨0, j + 1, by simp, by simpa using hj, by omega, rfl, by simpa using hjb⟩

theorem scoreLE_trans : ∀ a b c : MemoryAtom × ℚ,
    scoreLE a b = true → scoreLE b c = true → scoreLE a c = true := by
  intro a b c hab hbc
  simp only [scoreLE, decide_eq_true_eq] at *
  exact le_trans hbc hab

theorem scoreLE_total : ∀ a b : MemoryAtom × ℚ, (scoreLE a b || scoreLE b a) = true := by
  intro a b
  simp only [scoreLE, Bool.or_eq_true, decide_eq_true_eq]
  exact le_total b.2 a.2

theorem assocLE_trans : ∀ a b c : String × ℚ,
    scoreLE a b = true → scoreLE b c = true → scoreLE a c = true := by
  intro a b c hab hbc
  simp only [scoreLE, decide_eq_true_eq] at *
  exact le_trans hbc hab

theorem assocLE_total : ∀ a b : String × ℚ, (scoreLE a b || scoreLE b a) = true := by
  intro a b
  simp only [scoreLE, Bool.or_eq_true, decide_eq_true_eq]
  exact le_total b.2 a.2

theorem mergeSort_stability_master (l : List (String × ℚ)) (hnd : l.Nodup) :
    (l.mergeSort scoreLE).Pairwise (fun a b =>
      b.2 ≤ a.2 ∧ (a.2 = b.2 → [a, b].Sublist l)) := by
  have hperm := List.mergeSort_perm l scoreLE
  have hsortnd : (l.mergeSort scoreLE).Nodup := hperm.nodup_iff.mpr hnd
  have hsorted := List.sorted_mergeSort assocLE_trans assocLE_total l
  rw [List.pairwise_iff_getElem]
  intro i j hi hj hij
  have hle := (List.pairwise_iff_getElem.mp hsorted) i j hi hj hij
  refine ⟨by simpa [scoreLE] using hle, fun htie => ?_⟩
  have hne : (l.mergeSort scoreLE)[i] ≠ (l.mergeSort scoreLE)[j] := by
    intro he
    have := hsortnd.getElem_inj_iff.mp he
    omega
  have hmi : (l.mergeSort scoreLE)[i] ∈ l := hperm.mem_iff.mp (List.getElem_mem hi)
  have hmj : (l.mergeSort scoreLE)[j] ∈ l := hperm.mem_iff.mp (List.getElem_mem hj)
  rcases sublist_pair_of_mem hmi hmj hne with hok | hbad
  · exact hok
  · exfalso
    have hle2 : scoreLE (l.mergeSort scoreLE)[j] (l.mergeSort scoreLE)[i] = true := by
      simp [scoreLE, htie]
    have hba := List.pair_sublist_mergeSort assocLE_trans assocLE_total hle2 hbad
    obtain ⟨i2, j2, hi2, hj2, hij2, hb2, ha2⟩ := pair_sublist_getElem hba
    have hji : i2 = j := hsortnd.getElem_inj_iff.mp hb2
    have hij3 : j2 = i := hsortnd.getElem_inj_iff.mp ha2
    omega

/-- C7: `getFollowUpConcepts` returns at most `K` concepts, none of
which occurs among the input atoms' own concepts; the result is
ordered by the aggregated outgoing edge weight (aggregated by target
concept, category dropped) descending, and equal-weight concepts keep
the order of the association scan — their first-encountered order,
which is the key order of the built association map. -/
theorem followup_novel_bounded_ordered (g : ConceptGraph) (atoms : List MemoryAtom)
    (K : Nat) :
    (getFollowUpConcepts g atoms K).length ≤ K
    ∧ (∀ c ∈ getFollowUpConcepts g atoms K, ∀ atom ∈ atoms, c ∉ atom.concepts.getD [])
    ∧ (getFollowUpConcepts g atoms K).Pairwise (fun c1 c2 =>
        aggWeightSpec g atoms c2 ≤ aggWeightSpec g atoms c1
        ∧ (aggWeightSpec g atoms c1 = aggWeightSpec g atoms c2 →
            [c1, c2].Sublist ((followUpState g atoms).1.map Prod.fst))) := by
  have hkeynd := followUpState_keys_nodup g atoms
  have hassocnd : (followUpState g atoms).1.Nodup := List.Nodup.of_map Prod.fst hkeynd
  refine ⟨?_, ?_, ?_⟩
  · simp only [getFollowUpConcepts]
    rw [List.length_map]
    exact List.length_take_le _ _
  · intro c hc atom ha hcc
    have h2 : c ∈ (followUpState g atoms).2 := mem_followUpState_snd ha hcc
    simp only [getFollowUpConcepts] at hc
    obtain ⟨p, hp, rfl⟩ := List.mem_map.mp hc
    have hp2 : p ∈ (followUpState g atoms).1.filter
        (fun p => !((followUpState g atoms).2.contains p.1)) :=
      (List.mergeSort_perm _ _).mem_iff.mp (List.mem_of_mem_take hp)
    have hnc := List.of_mem_filter hp2
    have hnotmem : p.1 ∉ (followUpState g atoms).2 := by
      simpa [List.contains, List.elem_iff] using hnc
    exact hnotmem h2
  · simp only [getFollowUpConcepts]
    rw [List.pairwise_map]
    have hfilnd : ((followUpState g atoms).1.filter
        (fun p => !((followUpState g atoms).2.contains p.1))).Nodup :=
      hassocnd.filter _
    have hmaster := mergeSort_stability_master _ hfilnd
    have htake := List.Pairwise.sublist (List.take_sublist K _) hmaster
    refine List.Pairwise.imp_of_mem ?_ htake
    intro a b hma hmb hR
    have hma2 : a ∈ (followUpState g atoms).1.filter
        (fun p => !((followUpState g atoms).2.contains p.1)) :=
      (List.mergeSort_perm _ _).mem_iff.mp (List.mem_of_mem_take hma)
    have hmb2 : b ∈ (followUpState g atoms).1.filter
        (fun p => !((followUpState g atoms).2.contains p.1)) :=
      (List.mergeSort_perm _ _).mem_iff.mp (List.mem_of_mem_take hmb)
    have haassoc : a ∈ (followUpState g atoms).1 := List.mem_of_mem_filter hma2
    have hbassoc : b ∈ (followUpState g atoms).1 := List.mem_of_mem_filter hmb2
    have hav : a.2 = aggWeightSpec g atoms a.1 := by
      have h1 := mapGet_of_mem hkeynd haassoc
      have h2 := followUpState_get g atoms a.1
      rw [h1] at h2
      simpa using h2
    have hbv : b.2 = aggWeightSpec g atoms b.1 := by
      have h1 := mapGet_of_mem hkeynd hbassoc
      have h2 := followUpState_get g atoms b.1
      rw [h1] at h2
      simpa using h2
    constructor
    · rw [← hav, ← hbv]
      exact hR.1
    · intro htie
      have habtie : a.2 = b.2 := by rw [hav, hbv, htie]
      have hsub := (hR.2 habtie).map Prod.fst
      exact hsub.trans ((List.filter_sublist _).map Prod.fst)


/-- A concrete one-node graph for the C7 witness: node
`'user_message:x'` with three outgoing transitions. -/
def wGraph : ConceptGraph :=
  [("user_message:x",
    [("user_message:f1", (3 : ℚ)), ("model_response:f2", 5), ("user_message:x", 1)])]

/-- A concrete query atom carrying the concept `x`. -/
def wQuery : MemoryAtom :=
  { uuid := "q", type := "user_message", text := "", concepts := some ["x"],
    activationScore := some 1, lastActivatedTurn := some 0 }

/-- Concrete evaluation of the follow-up query: `x` itself is
excluded, the two novel concepts come back ordered by weight. -/
theorem wGraph_followUps_eval : getFollowUpConcepts wGraph [wQuery] 10 = ["f2", "f1"] := by
  have hk : ("user_message" ++ ":" ++ "x") = "user_message:x" := rfl
  have h1 : dropCategory "user_message:f1" = "f1" := by decide
  have h2 : dropCategory "model_response:f2" = "f2" := by decide
  have h3 : dropCategory "user_message:x" = "x" := by decide
  have hne : ("f1" : String) ≠ "f2" := by decide
  simp [getFollowUpConcepts, followUpState, followUpStep, followUpConceptStep,
    addTransitionWeights, mapGet, mapSet, hk, h1, h2, h3, hne,
    wGraph, wQuery, List.mergeSort, scoreLE, String.reduceEq]
  norm_num [List.merge, scoreLE]

/-- Witness for C7 on the concrete one-node graph: at most 10 results,
the novel concept `f2` is not an input concept, and the lower-weight
`f1` is ranked below the higher-weight `f2`. -/
theorem followup_novel_bounded_ordered_witness :
    (getFollowUpConcepts wGraph [wQuery] 10).length ≤ 10
    ∧ "f2" ∉ wQuery.concepts.getD []
    ∧ aggWeightSpec wGraph [wQuery] "f1" ≤ aggWeightSpec wGraph [wQuery] "f2" := by
  have h := followup_novel_bounded_ordered wGraph [wQuery] 10
  refine ⟨h.1, ?_, ?_⟩
  · exact h.2.1 "f2" (by rw [wGraph_followUps_eval]; simp) wQuery (by simp)
  · have h3 := h.2.2
    rw [wGraph_followUps_eval] at h3
    exact ((List.pairwise_cons.mp h3).1 "f1" (by simp)).1
